import Mathlib

/-!
# Verification of the Release-Relay text pipeline

Shallow embedding, in Lean 4, of the pure core of the release-notes
pipeline: the PR categorizer (`src/categorizer.ts`), the summary
aggregator (`src/summary.ts`), the issue-number extractor
(`src/github.ts`), the message splitter (`src/publishers.ts`) and the
markdown-to-Notion block converter with its inline rich-text tokenizer
(`scripts/post-to-notion.sh`, whose inline pass is a small Python
scanner).  Strings are embedded as Lean `String` / `List Char`;
JavaScript numbers, which are only ever non-negative integers in this
code, are embedded as `Nat`.
-/

namespace ReleaseRelay

/-! ## Generic list helpers (Boolean string containment)

`containsSub` is the embedding of JavaScript `String.prototype.includes`
(substring containment), used by the categorizer's title-keyword
fallback; `isPre` is the plain "starts with" test. -/

def isPre : List Char → List Char → Bool
  | [], _ => true
  | _ :: _, [] => false
  | a :: s, b :: t => a = b && isPre s t

def containsSub (sub : List Char) (l : List Char) : Bool :=
  match l with
  | [] => sub.isEmpty
  | _ :: t => isPre sub l || containsSub sub t

theorem isPre_iff (s l : List Char) : isPre s l = true ↔ ∃ post, l = s ++ post := by
  induction s generalizing l with
  | nil => simp [isPre]
  | cons a s ih =>
    cases l with
    | nil => simp [isPre]
    | cons b t =>
      simp only [isPre, Bool.and_eq_true, decide_eq_true_eq, ih, List.cons_append,
        List.cons.injEq]
      constructor
      · rintro ⟨rfl, post, rfl⟩; exact ⟨post, rfl, rfl⟩
      · rintro ⟨post, rfl, rfl⟩; exact ⟨rfl, post, rfl⟩

theorem containsSub_iff (sub l : List Char) :
    containsSub sub l = true ↔ ∃ pre post, l = pre ++ sub ++ post := by
  induction l with
  | nil =>
    simp only [containsSub, List.isEmpty_iff]
    constructor
    · rintro rfl; exact ⟨[], [], rfl⟩
    · rintro ⟨pre, post, h⟩
      rcases List.append_eq_nil.mp (List.append_eq_nil.mp h.symm).1 with ⟨-, h2⟩
      exact h2
  | cons c t ih =>
    simp only [containsSub, Bool.or_eq_true, isPre_iff, ih]
    constructor
    · rintro (⟨post, h⟩ | ⟨pre, post, h⟩)
      · exact ⟨[], post, by simpa using h⟩
      · exact ⟨c :: pre, post, by simp [h]⟩
    · rintro ⟨pre, post, h⟩
      cases pre with
      | nil => exact Or.inl ⟨post, by simpa using h⟩
      | cons p ps =>
        right
        simp only [List.cons_append, List.cons.injEq] at h
        exact ⟨ps, post, h.2⟩

theorem containsSub_append_right (sub l r : List Char) (h : containsSub sub l = true) :
    containsSub sub (l ++ r) = true := by
  rw [containsSub_iff] at h ⊢
  obtain ⟨pre, post, rfl⟩ := h
  exact ⟨pre, post ++ r, by simp⟩

/-! ## Data model (`src/types.ts`) -/

/-- `LinkedIssue` from `types.ts`. -/
structure LinkedIssue where
  number : Nat
  title : String
  url : String
  labels : List String
  type : String
deriving DecidableEq

/-- `PullRequestData` from `types.ts`. -/
structure PullRequestData where
  number : Nat
  title : String
  author : String
  labels : List String
  mergedAt : String
  additions : Nat
  deletions : Nat
  changedFiles : Nat
  milestone : Option String
  body : Option String
  htmlUrl : String
  linkedIssue : Option LinkedIssue
deriving DecidableEq

/-- The five category keys of `CategorizedPRs`. -/
inductive Category
  | features
  | bugFixes
  | security
  | refactoring
  | other
deriving DecidableEq

/-- `CategorizedPRs` from `types.ts`. -/
structure CategorizedPRs where
  features : List PullRequestData
  bugFixes : List PullRequestData
  security : List PullRequestData
  refactoring : List PullRequestData
  other : List PullRequestData
deriving DecidableEq

/-! ## Categorizer (`src/categorizer.ts`) -/

def FEATURE_LABELS : List String := ["feature", "enhancement"]

def BUG_LABELS : List String := ["bug", "fix", "bugfix", "hotfix"]

def SECURITY_LABELS : List String := ["security", "vulnerability", "cve"]

def REFACTOR_LABELS : List String := ["refactor", "chore", "maintenance", "infra", "ci", "docs"]

def FEATURE_KEYWORDS : List String := ["feat", "feature", "add", "new"]

def BUG_KEYWORDS : List String := ["fix", "bug", "patch", "hotfix"]

def SECURITY_KEYWORDS : List String := ["security", "cve", "vulnerability"]

def REFACTOR_KEYWORDS : List String := ["refactor", "chore", "cleanup", "clean up", "infra", "ci", "docs"]

/-- Embedding of `String.prototype.toLowerCase()`: character-wise lowering
(the labels and titles compared by the categorizer are ASCII). -/
def toLowerStr (s : String) : String :=
  ⟨s.data.map Char.toLower⟩

/-- `lowered` from `categorizer.ts`: lower-case every label. -/
def lowered (labels : List String) : List String :=
  labels.map toLowerStr

/-- `matchesAny` from `categorizer.ts`: `values.some((v) => targets.includes(v))`. -/
def matchesAny (values targets : List String) : Bool :=
  values.any (fun v => targets.contains v)

/-- `titleContains` from `categorizer.ts`: lower-case the title and test
whether any keyword occurs as a substring (`lower.includes(kw)`). -/
def titleContains (title : String) (keywords : List String) : Bool :=
  let lower := toLowerStr title
  keywords.any (fun kw => containsSub kw.data lower.data)

/-- `categorizePR` from `categorizer.ts`. -/
def categorizePR (pr : PullRequestData) : Category :=
  let labels := lowered pr.labels
  if matchesAny labels FEATURE_LABELS then .features
  else if matchesAny labels BUG_LABELS then .bugFixes
  else if matchesAny labels SECURITY_LABELS then .security
  else if matchesAny labels REFACTOR_LABELS then .refactoring
  else if titleContains pr.title SECURITY_KEYWORDS then .security
  else if titleContains pr.title FEATURE_KEYWORDS then .features
  else if titleContains pr.title BUG_KEYWORDS then .bugFixes
  else if titleContains pr.title REFACTOR_KEYWORDS then .refactoring
  else .other

def emptyCategorized : CategorizedPRs := ⟨[], [], [], [], []⟩

/-- One loop iteration of `categorizePRs`: `result[category].push(pr)`. -/
def pushCategory (result : CategorizedPRs) (c : Category) (pr : PullRequestData) :
    CategorizedPRs :=
  match c with
  | .features => { result with features := result.features ++ [pr] }
  | .bugFixes => { result with bugFixes := result.bugFixes ++ [pr] }
  | .security => { result with security := result.security ++ [pr] }
  | .refactoring => { result with refactoring := result.refactoring ++ [pr] }
  | .other => { result with other := result.other ++ [pr] }

/-- `categorizePRs` from `categorizer.ts`. -/
def categorizePRs (prs : List PullRequestData) : CategorizedPRs :=
  prs.foldl (fun result pr => pushCategory result (categorizePR pr) pr) emptyCategorized

/-- A PR value with every field defaulted, used to build concrete test inputs. -/
def mkPR (title author : String) (labels : List String) : PullRequestData :=
  ⟨0, title, author, labels, "", 0, 0, 0, none, none, "", none⟩

/-- The claim's reading of the classification cascade (C2), written out
directly from the claim's ordered label sets and title keyword lists, to be
compared with `categorizePR` as embedded from the source. -/
def categorizePRClaim (pr : PullRequestData) : Category :=
  let labels := pr.labels.map toLowerStr
  if labels.any (fun l => ["feature", "enhancement"].contains l) then .features
  else if labels.any (fun l => ["bug", "fix", "bugfix", "hotfix"].contains l) then .bugFixes
  else if labels.any (fun l => ["security", "vulnerability", "cve"].contains l) then .security
  else if labels.any (fun l => ["refactor", "chore", "maintenance", "infra", "ci", "docs"].contains l) then .refactoring
  else
    let title := toLowerStr pr.title
    if ["security", "cve", "vulnerability"].any (fun kw => containsSub kw.data title.data) then .security
    else if ["feat", "feature", "add", "new"].any (fun kw => containsSub kw.data title.data) then .features
    else if ["fix", "bug", "patch", "hotfix"].any (fun kw => containsSub kw.data title.data) then .bugFixes
    else if ["refactor", "chore", "cleanup", "clean up", "infra", "ci", "docs"].any (fun kw => containsSub kw.data title.data) then .refactoring
    else .other

theorem categorizePRs_foldl (prs : List PullRequestData) (acc : CategorizedPRs) :
    (prs.foldl (fun result pr => pushCategory result (categorizePR pr) pr) acc).features
        = acc.features ++ prs.filter (fun pr => categorizePR pr == Category.features)
  ∧ (prs.foldl (fun result pr => pushCategory result (categorizePR pr) pr) acc).bugFixes
        = acc.bugFixes ++ prs.filter (fun pr => categorizePR pr == Category.bugFixes)
  ∧ (prs.foldl (fun result pr => pushCategory result (categorizePR pr) pr) acc).security
        = acc.security ++ prs.filter (fun pr => categorizePR pr == Category.security)
  ∧ (prs.foldl (fun result pr => pushCategory result (categorizePR pr) pr) acc).refactoring
        = acc.refactoring ++ prs.filter (fun pr => categorizePR pr == Category.refactoring)
  ∧ (prs.foldl (fun result pr => pushCategory result (categorizePR pr) pr) acc).other
        = acc.other ++ prs.filter (fun pr => categorizePR pr == Category.other) := by
  induction prs generalizing acc with
  | nil => simp
  | cons pr rest ih =>
    obtain ⟨h1, h2, h3, h4, h5⟩ := ih (pushCategory acc (categorizePR pr) pr)
    cases h : categorizePR pr <;>
      simp_all [pushCategory, List.filter_cons, h, List.append_assoc]

theorem count_filter_categorize (a : PullRequestData) (prs : List PullRequestData)
    (c : Category) :
    (prs.filter (fun pr => categorizePR pr == c)).count a
      = if categorizePR a = c then prs.count a else 0 := by
  split
  next h => exact List.count_filter (by simp [h])
  next h =>
    refine List.count_eq_zero.mpr (fun hmem => ?_)
    rcases List.mem_filter.mp hmem with ⟨-, hc⟩
    exact h (by simpa using hc)

/-- **C1.** For every input PR list the five buckets of `categorizePRs` form
an exact partition of the input: each bucket is the in-order sublist of the
input PRs classified into it (so buckets are insertion-ordered and every PR
lands in exactly one bucket), the concatenation of the five buckets is a
permutation of the input, and its length equals the input length. -/
theorem categorizePRs_partition (prs : List PullRequestData) :
    ((categorizePRs prs).features = prs.filter (fun pr => categorizePR pr == Category.features))
  ∧ ((categorizePRs prs).bugFixes = prs.filter (fun pr => categorizePR pr == Category.bugFixes))
  ∧ ((categorizePRs prs).security = prs.filter (fun pr => categorizePR pr == Category.security))
  ∧ ((categorizePRs prs).refactoring = prs.filter (fun pr => categorizePR pr == Category.refactoring))
  ∧ ((categorizePRs prs).other = prs.filter (fun pr => categorizePR pr == Category.other))
  ∧ ((categorizePRs prs).features ++ (categorizePRs prs).bugFixes
      ++ (categorizePRs prs).security ++ (categorizePRs prs).refactoring
      ++ (categorizePRs prs).other).Perm prs
  ∧ ((categorizePRs prs).features ++ (categorizePRs prs).bugFixes
      ++ (categorizePRs prs).security ++ (categorizePRs prs).refactoring
      ++ (categorizePRs prs).other).length = prs.length := by
  obtain ⟨h1, h2, h3, h4, h5⟩ := categorizePRs_foldl prs emptyCategorized
  simp only [emptyCategorized, List.nil_append] at h1 h2 h3 h4 h5
  have e1 : (categorizePRs prs).features
      = prs.filter (fun pr => categorizePR pr == Category.features) := h1
  have e2 : (categorizePRs prs).bugFixes
      = prs.filter (fun pr => categorizePR pr == Category.bugFixes) := h2
  have e3 : (categorizePRs prs).security
      = prs.filter (fun pr => categorizePR pr == Category.security) := h3
  have e4 : (categorizePRs prs).refactoring
      = prs.filter (fun pr => categorizePR pr == Category.refactoring) := h4
  have e5 : (categorizePRs prs).other
      = prs.filter (fun pr => categorizePR pr == Category.other) := h5
  have hperm : ((categorizePRs prs).features ++ (categorizePRs prs).bugFixes
      ++ (categorizePRs prs).security ++ (categorizePRs prs).refactoring
      ++ (categorizePRs prs).other).Perm prs := by
    rw [List.perm_iff_count]
    intro a
    simp only [e1, e2, e3, e4, e5, List.count_append, count_filter_categorize]
    cases h : categorizePR a <;> simp [h]
  exact ⟨e1, e2, e3, e4, e5, hperm, hperm.length_eq⟩

/-- **C2.** `categorizePR` decides the bucket by the claim's cascade: the four
lowercased-label sets are tested in order features, bugFixes, security,
refactoring; only if no label matches, the lowercased-title keyword lists are
tested in order security, features, bugFixes, refactoring; otherwise the
bucket is `other`.  In particular a PR with labels `["feature"]` and title
`"fix: something"` is classified `features`. -/
theorem categorizePR_cascade (pr : PullRequestData) :
    categorizePR pr = categorizePRClaim pr
  ∧ categorizePR (mkPR "fix: something" "octocat" ["feature"]) = Category.features := by
  exact ⟨rfl, by decide⟩

/-! ## Issue-number extraction (`src/github.ts`, `extractIssueNumber`)

The four anchored regular expressions are embedded as deterministic
character-list scanners.  Each character class used by the patterns
(`[a-z]`, `\d`, `\s`, `[a-zA-Z]`) excludes the literal that terminates it
in the pattern, so the greedy JavaScript semantics need no backtracking
and the embedding below is exact.  `\s` is modelled over the ASCII
whitespace characters. -/

def isLowerAlpha (c : Char) : Bool := 'a' ≤ c && c ≤ 'z'

def isUpperAlpha (c : Char) : Bool := 'A' ≤ c && c ≤ 'Z'

def isAlphaChar (c : Char) : Bool := isLowerAlpha c || isUpperAlpha c

def isDigitChar (c : Char) : Bool := '0' ≤ c && c ≤ '9'

def isSpaceChar (c : Char) : Bool :=
  c = ' ' || c = '\t' || c = '\n' || c = '\r' || c = '\x0b' || c = '\x0c'

/-- `parseInt(digits, 10)` on a digit run. -/
def digitsToNat (ds : List Char) : Nat :=
  ds.foldl (fun acc c => acc * 10 + (c.toNat - '0'.toNat)) 0

/-- Pattern 1 of `extractIssueNumber`: `^[a-z]+\(#?(\d+)\):`. -/
def issuePat1 (l : List Char) : Option Nat :=
  let letters := l.takeWhile isLowerAlpha
  let r1 := l.dropWhile isLowerAlpha
  if letters.isEmpty then none
  else
    match r1 with
    | '(' :: r2 =>
      let r3 := match r2 with
        | '#' :: r => r
        | _ => r2
      let digs := r3.takeWhile isDigitChar
      let r4 := r3.dropWhile isDigitChar
      if digs.isEmpty then none
      else
        match r4 with
        | ')' :: ':' :: _ => some (digitsToNat digs)
        | _ => none
    | _ => none

/-- Pattern 2 of `extractIssueNumber`: `^#(\d+)\s+`. -/
def issuePat2 (l : List Char) : Option Nat :=
  match l with
  | '#' :: r1 =>
    let digs := r1.takeWhile isDigitChar
    let r2 := r1.dropWhile isDigitChar
    if digs.isEmpty then none
    else
      match r2 with
      | c :: _ => if isSpaceChar c then some (digitsToNat digs) else none
      | [] => none
  | _ => none

/-- Pattern 3 of `extractIssueNumber`: `^(\d+)\s*[-:]\s*`. -/
def issuePat3 (l : List Char) : Option Nat :=
  let digs := l.takeWhile isDigitChar
  let r1 := l.dropWhile isDigitChar
  if digs.isEmpty then none
  else
    match r1.dropWhile isSpaceChar with
    | c :: _ => if c = '-' || c = ':' then some (digitsToNat digs) else none
    | [] => none

/-- Pattern 4 of `extractIssueNumber`: `^(\d+)\s+[a-zA-Z]`. -/
def issuePat4 (l : List Char) : Option Nat :=
  let digs := l.takeWhile isDigitChar
  let r1 := l.dropWhile isDigitChar
  if digs.isEmpty then none
  else
    match r1 with
    | c :: r2 =>
      if isSpaceChar c then
        match r2.dropWhile isSpaceChar with
        | d :: _ => if isAlphaChar d then some (digitsToNat digs) else none
        | [] => none
      else none
    | [] => none

/-- `extractIssueNumber` from `github.ts`: the four patterns are tried in
order and the first match wins. -/
def extractIssueNumber (title : String) : Option Nat :=
  match issuePat1 title.data with
  | some n => some n
  | none =>
    match issuePat2 title.data with
    | some n => some n
    | none =>
      match issuePat3 title.data with
      | some n => some n
      | none =>
        match issuePat4 title.data with
        | some n => some n
        | none => none

theorem issuePat1_head_none (c : Char) (t : List Char) (h : isLowerAlpha c = false) :
    issuePat1 (c :: t) = none := by
  simp [issuePat1, List.takeWhile_cons, h, List.isEmpty]

theorem issuePat2_head_none (c : Char) (t : List Char) (h : c ≠ '#') :
    issuePat2 (c :: t) = none := by
  unfold issuePat2
  split
  next heq => exact absurd (List.cons.inj heq).1 h
  next => rfl

theorem issuePat3_head_none (c : Char) (t : List Char) (h : isDigitChar c = false) :
    issuePat3 (c :: t) = none := by
  simp [issuePat3, List.takeWhile_cons, h, List.isEmpty]

theorem issuePat4_head_none (c : Char) (t : List Char) (h : isDigitChar c = false) :
    issuePat4 (c :: t) = none := by
  simp [issuePat4, List.takeWhile_cons, h, List.isEmpty]

/-- **C3.** `extractIssueNumber` applies its four ordered heuristics, all
anchored to the start of the title: `"fix(634): x"` yields 634 (conventional
commit), `"#2964 Improve..."` yields 2964 (hash prefix with a following
space), `"3156- Feature"` yields 3156 (separator form), bare `"1234"` and
bare `"#1234"` yield none, and a title whose first character can start none
of the patterns (not a lowercase letter, not `#`, not a digit) always yields
none, so a reference that does not sit at position 0 is never extracted. -/
theorem extractIssueNumber_spec :
    extractIssueNumber "1234" = none
  ∧ extractIssueNumber "#1234" = none
  ∧ extractIssueNumber "fix(634): x" = some 634
  ∧ extractIssueNumber "3156- Feature" = some 3156
  ∧ extractIssueNumber "#2964 Improve..." = some 2964
  ∧ (∀ (title : String) (c : Char) (t : List Char), title.data = c :: t →
      isLowerAlpha c = false → c ≠ '#' → isDigitChar c = false →
      extractIssueNumber title = none) := by
  refine ⟨by decide, by decide, by decide, by decide, by decide, ?_⟩
  intro title c t hdata hl hh hd
  unfold extractIssueNumber
  rw [hdata, issuePat1_head_none c t hl, issuePat2_head_none c t hh,
    issuePat3_head_none c t hd, issuePat4_head_none c t hd]

/-- Witness for the anchoring clause of C3: a conventional-commit reference
preceded by a single space is not extracted. -/
theorem extractIssueNumber_spec_witness :
    extractIssueNumber " fix(634): x" = none :=
  extractIssueNumber_spec.2.2.2.2.2 " fix(634): x" ' ' "fix(634): x".data
    (by decide) (by decide) (by decide) (by decide)

/-! ## Summary aggregation (`src/summary.ts`) -/

/-- `ContributorEntry` from `types.ts`. -/
structure ContributorEntry where
  username : String
  count : Nat
deriving DecidableEq

/-- `SummaryStats` from `types.ts`. -/
structure SummaryStats where
  totalPRs : Nat
  totalContributors : Nat
  totalAdditions : Nat
  totalDeletions : Nat
  totalFilesChanged : Nat
  featureCount : Nat
  bugFixCount : Nat
  refactorCount : Nat
  securityCount : Nat
  otherCount : Nat
deriving DecidableEq

/-- One step of the `Map`-based counting loop in `buildContributorList`:
`counts.set(pr.author, (counts.get(pr.author) ?? 0) + 1)`.  A JavaScript
`Map` keeps first-insertion order on update, so it is embedded as an
insertion-ordered association list. -/
def bumpAuthor (counts : List ContributorEntry) (author : String) : List ContributorEntry :=
  match counts with
  | [] => [⟨author, 1⟩]
  | e :: rest =>
    if e.username = author then ⟨e.username, e.count + 1⟩ :: rest
    else e :: bumpAuthor rest author

/-- The per-author counts of `buildContributorList`, in first-seen order. -/
def authorCounts (prs : List PullRequestData) : List ContributorEntry :=
  prs.foldl (fun m pr => bumpAuthor m pr.author) []

/-- `Array.prototype.sort((a, b) => b.count - a.count)`: a stable comparison
sort, descending by `count` (stability is mandated by the JavaScript
specification), embedded as a stable insertion sort. -/
def insertDesc (e : ContributorEntry) : List ContributorEntry → List ContributorEntry
  | [] => [e]
  | x :: rest => if e.count ≤ x.count then x :: insertDesc e rest else e :: x :: rest

def sortContributors (entries : List ContributorEntry) : List ContributorEntry :=
  entries.foldl (fun acc e => insertDesc e acc) []

/-- `buildContributorList` from `summary.ts`. -/
def buildContributorList (prs : List PullRequestData) : List ContributorEntry :=
  sortContributors (authorCounts prs)

/-- First-appearance order of a list's elements (the claim's reading of
"first-seen order" for C7). -/
def firstSeen (xs : List String) : List String :=
  xs.foldl (fun acc a => if a ∈ acc then acc else acc ++ [a]) []

/-- Zero-padded three-digit rendering of `n % 1000` groups. -/
def pad3 (n : Nat) : String :=
  if n < 10 then "00" ++ toString n
  else if n < 100 then "0" ++ toString n
  else toString n

/-- Fueled recursion over thousands groups; `fuel ≥ n` makes the fuel
inessential (`formatNumberGo_fuel`), and the recursion depth is at most
the number of base-1000 digits of `n`. -/
def formatNumberGo : Nat → Nat → String
  | 0, n => toString n
  | fuel + 1, n =>
    if n < 1000 then toString n
    else formatNumberGo fuel (n / 1000) ++ "," ++ pad3 (n % 1000)

/-- `formatNumber` from `summary.ts`: `n.toLocaleString("en-US")`, i.e.
base-10 rendering with comma thousands grouping, embedded for the
non-negative integers this code passes to it. -/
def formatNumber (n : Nat) : String :=
  formatNumberGo n n

theorem formatNumberGo_fuel (f1 : Nat) :
    ∀ (f2 n : Nat), n ≤ f1 → n ≤ f2 → formatNumberGo f1 n = formatNumberGo f2 n := by
  induction f1 with
  | zero =>
    intro f2 n h1 _
    interval_cases n
    cases f2 <;> simp [formatNumberGo]
  | succ f ih =>
    intro f2 n h1 h2
    cases f2 with
    | zero =>
      interval_cases n
      simp [formatNumberGo]
    | succ g =>
      by_cases hn : n < 1000
      · simp [formatNumberGo, hn]
      · have hq : n / 1000 ≤ f := by
          have := Nat.div_lt_self (n := n) (by omega) (by omega : 1 < 1000)
          omega
        have hq2 : n / 1000 ≤ g := by
          have := Nat.div_lt_self (n := n) (by omega) (by omega : 1 < 1000)
          omega
        simp only [formatNumberGo, if_neg hn]
        rw [ih g (n / 1000) hq hq2]

/-- `Array.prototype.join(sep)`. -/
def joinSep (sep : String) : List String → String
  | [] => ""
  | [x] => x
  | x :: y :: xs => x ++ sep ++ joinSep sep (y :: xs)

/-- `renderSummaryText` from `summary.ts`. -/
def renderSummaryText (stats : SummaryStats) : String :=
  let line1 := "This release includes **" ++ toString stats.totalPRs
      ++ "** merged pull request" ++ (if stats.totalPRs ≠ 1 then "s" else "")
      ++ " from **" ++ toString stats.totalContributors ++ "** contributor"
      ++ (if stats.totalContributors ≠ 1 then "s" else "") ++ "."
  let focusAreas : List String :=
    (if stats.featureCount > 0 then ["new features (" ++ toString stats.featureCount ++ ")"] else [])
    ++ (if stats.bugFixCount > 0 then ["bug fixes (" ++ toString stats.bugFixCount ++ ")"] else [])
    ++ (if stats.refactorCount > 0 then ["infrastructure / refactoring (" ++ toString stats.refactorCount ++ ")"] else [])
    ++ (if stats.securityCount > 0 then ["security improvements (" ++ toString stats.securityCount ++ ")"] else [])
    ++ (if stats.otherCount > 0 then ["other changes (" ++ toString stats.otherCount ++ ")"] else [])
  let deltaLine := "Total code delta: **+" ++ formatNumber stats.totalAdditions
      ++ "** / **-" ++ formatNumber stats.totalDeletions
      ++ "** lines across **" ++ formatNumber stats.totalFilesChanged ++ "** files."
  let lines := [line1]
      ++ (if focusAreas.length > 0 then ["Major focus areas: " ++ joinSep ", " focusAreas ++ "."] else [])
      ++ [deltaLine]
  joinSep "  \n" lines

/-- **C9.** `formatNumber` renders non-negative integers below 1000
unchanged (plain base-10) and integers at or above 1000 with comma
thousands grouping, the next group zero-padded to three digits; in
particular `formatNumber 0 = "0"`, `formatNumber 42 = "42"`,
`formatNumber 4231 = "4,231"` and `formatNumber 1234567 = "1,234,567"`. -/
theorem formatNumber_spec :
    formatNumber 0 = "0"
  ∧ formatNumber 42 = "42"
  ∧ formatNumber 4231 = "4,231"
  ∧ formatNumber 1234567 = "1,234,567"
  ∧ (∀ n : Nat, n < 1000 → formatNumber n = toString n)
  ∧ (∀ n : Nat, 1000 ≤ n →
      formatNumber n = formatNumber (n / 1000) ++ "," ++ pad3 (n % 1000)) := by
  refine ⟨by decide, by decide, by decide, by decide, ?_, ?_⟩
  · intro n h
    cases n with
    | zero => rfl
    | succ k => simp [formatNumber, formatNumberGo, h]
  · intro n h
    obtain ⟨k, rfl⟩ : ∃ k, n = k + 1 := ⟨n - 1, by omega⟩
    show formatNumberGo (k + 1) (k + 1) = _
    rw [formatNumberGo, if_neg (by omega)]
    rw [formatNumberGo_fuel k ((k + 1) / 1000) ((k + 1) / 1000)
      (by
        have := Nat.div_lt_self (n := k + 1) (by omega) (by omega : 1 < 1000)
        omega)
      (le_refl _)]
    rfl

/-- Witness for the bounded clauses of C9. -/
theorem formatNumber_spec_witness :
    formatNumber 42 = toString 42
  ∧ formatNumber 4231 = formatNumber (4231 / 1000) ++ "," ++ pad3 (4231 % 1000) :=
  ⟨formatNumber_spec.2.2.2.2.1 42 (by decide),
   formatNumber_spec.2.2.2.2.2 4231 (by decide)⟩

/-- Total PR count credited to a username by an association list. -/
def lookupCount (m : List ContributorEntry) (u : String) : Nat :=
  ((m.filter (fun e => e.username == u)).map (fun e => e.count)).sum

theorem bumpAuthor_map (m : List ContributorEntry) (a : String) :
    (bumpAuthor m a).map (fun e => e.username)
      = if a ∈ m.map (fun e => e.username) then m.map (fun e => e.username)
        else m.map (fun e => e.username) ++ [a] := by
  induction m with
  | nil => simp [bumpAuthor]
  | cons e rest ih =>
    by_cases h : e.username = a
    · simp [bumpAuthor, h]
    · simp only [bumpAuthor, if_neg h, List.map_cons, ih, List.mem_cons]
      by_cases hm : a ∈ rest.map (fun e => e.username) <;>
        simp [hm, Ne.symm h]

theorem lookupCount_cons (x : ContributorEntry) (m : List ContributorEntry) (u : String) :
    lookupCount (x :: m) u = (if x.username = u then x.count else 0) + lookupCount m u := by
  by_cases h : x.username = u
  · simp [lookupCount, List.filter_cons, h]
  · have hb : (x.username == u) = false := by simp [beq_iff_eq, h]
    simp [lookupCount, List.filter_cons, hb, h]

theorem bumpAuthor_lookup (m : List ContributorEntry) (a u : String) :
    lookupCount (bumpAuthor m a) u = lookupCount m u + (if u = a then 1 else 0) := by
  induction m with
  | nil =>
    rw [show bumpAuthor [] a = [⟨a, 1⟩] from rfl, lookupCount_cons]
    by_cases h : u = a
    · simp [h, lookupCount]
    · have hau : ¬(a = u) := fun hh => h hh.symm
      simp [hau, h, lookupCount]
  | cons e rest ih =>
    by_cases h : e.username = a
    · rw [show bumpAuthor (e :: rest) a = ⟨e.username, e.count + 1⟩ :: rest from
        by simp [bumpAuthor, h], lookupCount_cons, lookupCount_cons]
      by_cases hu : e.username = u
      · have hua : u = a := by rw [← hu, h]
        have h1 : (⟨e.username, e.count + 1⟩ : ContributorEntry).username = u := hu
        rw [if_pos h1, if_pos hu, if_pos hua]
        show e.count + 1 + lookupCount rest u = e.count + lookupCount rest u + 1
        omega
      · have hua : ¬(u = a) := fun hh => hu (by rw [h, hh])
        simp [hu, hua]
    · rw [show bumpAuthor (e :: rest) a = e :: bumpAuthor rest a from
        by simp [bumpAuthor, h], lookupCount_cons, lookupCount_cons, ih]
      omega

theorem authorCounts_lookup_aux (prs : List PullRequestData) :
    ∀ (m : List ContributorEntry) (u : String),
      lookupCount (prs.foldl (fun m pr => bumpAuthor m pr.author) m) u
        = lookupCount m u + prs.countP (fun pr => pr.author == u) := by
  induction prs with
  | nil => simp [lookupCount]
  | cons pr rest ih =>
    intro m u
    simp only [List.foldl_cons, List.countP_cons]
    rw [ih (bumpAuthor m pr.author) u, bumpAuthor_lookup]
    by_cases h : u = pr.author
    · simp [h, beq_iff_eq]
      omega
    · have : (pr.author == u) = false := by
        simp only [beq_eq_false_iff_ne, ne_eq]
        exact fun hh => h hh.symm
      simp [h, this]

theorem authorCounts_lookup (prs : List PullRequestData) (u : String) :
    lookupCount (authorCounts prs) u = prs.countP (fun pr => pr.author == u) := by
  have := authorCounts_lookup_aux prs [] u
  simpa [lookupCount, authorCounts] using this

theorem authorCounts_map_aux (prs : List PullRequestData) :
    ∀ (m : List ContributorEntry),
      (prs.foldl (fun m pr => bumpAuthor m pr.author) m).map (fun e => e.username)
        = (prs.map (fun pr => pr.author)).foldl
            (fun acc a => if a ∈ acc then acc else acc ++ [a])
            (m.map (fun e => e.username)) := by
  induction prs with
  | nil => simp
  | cons pr rest ih =>
    intro m
    simp only [List.foldl_cons, List.map_cons]
    rw [ih (bumpAuthor m pr.author), bumpAuthor_map]

/-- The counting pass lists usernames in first-appearance order. -/
theorem authorCounts_map (prs : List PullRequestData) :
    (authorCounts prs).map (fun e => e.username)
      = firstSeen (prs.map (fun pr => pr.author)) := by
  have := authorCounts_map_aux prs []
  simpa [authorCounts, firstSeen] using this

theorem mem_firstSeen_foldl (xs : List String) :
    ∀ (acc : List String) (a : String),
      (a ∈ xs.foldl (fun acc a => if a ∈ acc then acc else acc ++ [a]) acc)
        ↔ a ∈ acc ∨ a ∈ xs := by
  induction xs with
  | nil => simp
  | cons x rest ih =>
    intro acc a
    simp only [List.foldl_cons, ih, List.mem_cons]
    by_cases h : x ∈ acc
    · simp only [if_pos h]
      constructor
      · rintro (ha | ha)
        · exact Or.inl ha
        · exact Or.inr (Or.inr ha)
      · rintro (ha | rfl | ha)
        · exact Or.inl ha
        · exact Or.inl h
        · exact Or.inr ha
    · simp only [if_neg h, List.mem_append, List.mem_singleton]
      tauto

theorem mem_firstSeen (xs : List String) (a : String) :
    a ∈ firstSeen xs ↔ a ∈ xs := by
  have := mem_firstSeen_foldl xs [] a
  simpa [firstSeen] using this

theorem authorCounts_nodup (prs : List PullRequestData) :
    ((authorCounts prs).map (fun e => e.username)).Nodup := by
  suffices h : ∀ (ps : List PullRequestData) (m : List ContributorEntry),
      (m.map (fun e => e.username)).Nodup →
      ((ps.foldl (fun m pr => bumpAuthor m pr.author) m).map (fun e => e.username)).Nodup by
    exact h prs [] (by simp)
  intro ps
  induction ps with
  | nil => exact fun m hm => hm
  | cons pr rest ih =>
    intro m hm
    simp only [List.foldl_cons]
    refine ih (bumpAuthor m pr.author) ?_
    rw [bumpAuthor_map]
    by_cases h : pr.author ∈ m.map (fun e => e.username)
    · simpa [h] using hm
    · rw [if_neg h]
      exact ((List.perm_append_singleton _ _).nodup_iff).mpr (List.Nodup.cons h hm)

theorem insertDesc_perm (e : ContributorEntry) (l : List ContributorEntry) :
    (insertDesc e l).Perm (e :: l) := by
  induction l with
  | nil => exact List.Perm.refl _
  | cons x rest ih =>
    by_cases h : e.count ≤ x.count
    · simp only [insertDesc, if_pos h]
      exact (ih.cons x).trans (List.Perm.swap e x rest)
    · simp [insertDesc, if_neg h]

theorem insertDesc_sorted (e : ContributorEntry) (l : List ContributorEntry)
    (hl : l.Pairwise (fun a b => b.count ≤ a.count)) :
    (insertDesc e l).Pairwise (fun a b => b.count ≤ a.count) := by
  induction l with
  | nil => simp [insertDesc]
  | cons x rest ih =>
    rcases List.pairwise_cons.mp hl with ⟨hx, hrest⟩
    by_cases h : e.count ≤ x.count
    · simp only [insertDesc, if_pos h]
      refine List.pairwise_cons.mpr ⟨?_, ih hrest⟩
      intro b hb
      rcases List.mem_cons.mp ((insertDesc_perm e rest).mem_iff.mp hb) with rfl | hb
      · exact h
      · exact hx b hb
    · simp only [insertDesc, if_neg h]
      refine List.pairwise_cons.mpr ⟨?_, hl⟩
      intro b hb
      rcases List.mem_cons.mp hb with rfl | hb
      · omega
      · exact le_trans (hx b hb) (by omega)

theorem insertDesc_filter_ne (e : ContributorEntry) (l : List ContributorEntry)
    (c : Nat) (h : e.count ≠ c) :
    (insertDesc e l).filter (fun x => x.count == c) = l.filter (fun x => x.count == c) := by
  have he : (e.count == c) = false := by simp [beq_iff_eq, h]
  induction l with
  | nil => simp [insertDesc, List.filter_cons, he]
  | cons x rest ih =>
    by_cases hx : e.count ≤ x.count
    · simp only [insertDesc, if_pos hx, List.filter_cons, ih]
    · simp [insertDesc, if_neg hx, List.filter_cons, he]

theorem insertDesc_filter_eq (e : ContributorEntry) (l : List ContributorEntry)
    (c : Nat) (h : e.count = c) (hl : l.Pairwise (fun a b => b.count ≤ a.count)) :
    (insertDesc e l).filter (fun x => x.count == c)
      = l.filter (fun x => x.count == c) ++ [e] := by
  induction l with
  | nil => simp [insertDesc, List.filter, beq_iff_eq, h]
  | cons x rest ih =>
    rcases List.pairwise_cons.mp hl with ⟨hx, hrest⟩
    by_cases hc : e.count ≤ x.count
    · simp only [insertDesc, if_pos hc, List.filter_cons, ih hrest]
      by_cases hxc : x.count = c <;> simp [hxc]
    · have hxc : (x.count == c) = false := by
        simp only [beq_eq_false_iff_ne, ne_eq]
        omega
      have he : (e.count == c) = true := by simp [beq_iff_eq, h]
      have hrestnil : rest.filter (fun y => y.count == c) = [] := by
        rw [List.filter_eq_nil_iff]
        intro b hb
        have := hx b hb
        simp only [beq_iff_eq, decide_eq_true_eq]
        omega
      simp [insertDesc, if_neg hc, List.filter_cons, he, hxc, hrestnil]

theorem sortContributors_aux (entries : List ContributorEntry) :
    ∀ (acc : List ContributorEntry),
      acc.Pairwise (fun a b => b.count ≤ a.count) →
      ((entries.foldl (fun acc e => insertDesc e acc) acc).Pairwise
          (fun a b => b.count ≤ a.count)
        ∧ ∀ c : Nat,
          (entries.foldl (fun acc e => insertDesc e acc) acc).filter
              (fun x => x.count == c)
            = acc.filter (fun x => x.count == c)
              ++ entries.filter (fun x => x.count == c)) := by
  induction entries with
  | nil => exact fun acc h => ⟨h, by simp⟩
  | cons e rest ih =>
    intro acc hacc
    obtain ⟨hs, hf⟩ := ih (insertDesc e acc) (insertDesc_sorted e acc hacc)
    refine ⟨hs, fun c => ?_⟩
    rw [List.foldl_cons, hf c, List.filter_cons]
    by_cases hc : e.count = c
    · rw [insertDesc_filter_eq e acc c hc hacc]
      simp [beq_iff_eq, hc]
    · rw [insertDesc_filter_ne e acc c hc]
      have : (e.count == c) = false := by simp [beq_iff_eq, hc]
      simp [this]

theorem sortContributors_perm (entries : List ContributorEntry) :
    (sortContributors entries).Perm entries := by
  suffices h : ∀ (es acc : List ContributorEntry),
      (es.foldl (fun acc e => insertDesc e acc) acc).Perm (acc ++ es) by
    simpa [sortContributors] using h entries []
  intro es
  induction es with
  | nil => simp
  | cons e rest ih =>
    intro acc
    simp only [List.foldl_cons]
    refine (ih (insertDesc e acc)).trans ?_
    refine (((insertDesc_perm e acc).append_right rest).trans ?_)
    exact List.perm_middle.symm

theorem lookupCount_of_mem (m : List ContributorEntry) (e : ContributorEntry)
    (hnodup : (m.map (fun x => x.username)).Nodup) (hmem : e ∈ m) :
    lookupCount m e.username = e.count := by
  induction m with
  | nil => cases hmem
  | cons x rest ih =>
    simp only [List.map_cons, List.nodup_cons] at hnodup
    rcases List.mem_cons.mp hmem with rfl | hmem
    · have hrest : rest.filter (fun y => y.username == e.username) = [] := by
        rw [List.filter_eq_nil_iff]
        intro b hb hbe
        exact hnodup.1 (by
          rw [beq_iff_eq] at hbe
          rw [← hbe]
          exact List.mem_map_of_mem (fun y => y.username) hb)
      simp [lookupCount, List.filter_cons, hrest]
    · have hx : (x.username == e.username) = false := by
        simp only [beq_eq_false_iff_ne, ne_eq]
        intro hh
        exact hnodup.1 (hh ▸ List.mem_map_of_mem (fun y => y.username) hmem)
      simp only [lookupCount, List.filter_cons, hx]
      exact ih hnodup.2 hmem

/-- The PR list of the C7 example, author sequence
alice, bob, alice, alice, bob, charlie. -/
def examplePrs : List PullRequestData :=
  [mkPR "" "alice" [], mkPR "" "bob" [], mkPR "" "alice" [],
   mkPR "" "alice" [], mkPR "" "bob" [], mkPR "" "charlie" []]

/-- **C7.** `buildContributorList` returns one entry per distinct author
(usernames are distinct and are exactly the input's authors), each entry
carries that author's PR count, the result is sorted descending by count,
and ties preserve first-appearance order: for every count value the
equal-count entries appear exactly in the order of the first-seen counting
pass, which itself lists authors in first-appearance order.  On the author
sequence alice, bob, alice, alice, bob, charlie it returns
alice 3, bob 2, charlie 1 in that order. -/
theorem buildContributorList_spec (prs : List PullRequestData) :
    buildContributorList examplePrs
      = [⟨"alice", 3⟩, ⟨"bob", 2⟩, ⟨"charlie", 1⟩]
  ∧ ((buildContributorList prs).map (fun e => e.username)).Nodup
  ∧ (∀ a : String,
      a ∈ (buildContributorList prs).map (fun e => e.username)
        ↔ a ∈ prs.map (fun pr => pr.author))
  ∧ (∀ e ∈ buildContributorList prs,
      e.count = prs.countP (fun pr => pr.author == e.username))
  ∧ (buildContributorList prs).Pairwise (fun a b => b.count ≤ a.count)
  ∧ (∀ c : Nat,
      (buildContributorList prs).filter (fun e => e.count == c)
        = (authorCounts prs).filter (fun e => e.count == c))
  ∧ (authorCounts prs).map (fun e => e.username)
      = firstSeen (prs.map (fun pr => pr.author)) := by
  have hperm : (buildContributorList prs).Perm (authorCounts prs) :=
    sortContributors_perm (authorCounts prs)
  have hnodupA := authorCounts_nodup prs
  obtain ⟨hsorted, hfilter⟩ :=
    sortContributors_aux (authorCounts prs) [] (by simp)
  refine ⟨by decide, ?_, ?_, ?_, hsorted, ?_, authorCounts_map prs⟩
  · exact ((hperm.map (fun e => e.username)).nodup_iff).mpr hnodupA
  · intro a
    rw [(hperm.map (fun e => e.username)).mem_iff, authorCounts_map, mem_firstSeen]
  · intro e he
    have heA : e ∈ authorCounts prs := hperm.mem_iff.mp he
    have := lookupCount_of_mem (authorCounts prs) e hnodupA heA
    rw [authorCounts_lookup] at this
    omega
  · intro c
    simpa [sortContributors] using hfilter c

/-- Witness for the hypothesis-bearing clauses of C7, instantiated on the
example PR list. -/
theorem buildContributorList_spec_witness :
    (⟨"bob", 2⟩ : ContributorEntry).count
      = examplePrs.countP (fun pr => pr.author == "bob") :=
  (buildContributorList_spec examplePrs).2.2.2.1 ⟨"bob", 2⟩ (by decide)

/-- First sentence of the summary, written from the claim's pluralization
rule: the trailing "s" is omitted exactly when the count equals 1, for the
PR count and the contributor count independently. -/
def summaryLine1 (stats : SummaryStats) : String :=
  "This release includes **" ++ toString stats.totalPRs
    ++ "** merged pull request" ++ (if stats.totalPRs = 1 then "" else "s")
    ++ " from **" ++ toString stats.totalContributors ++ "** contributor"
    ++ (if stats.totalContributors = 1 then "" else "s") ++ "."

/-- Focus-area labels per the claim: only the categories with non-zero
counts, in the fixed order features, bugFixes, refactoring, security,
other. -/
def focusAreasClaim (stats : SummaryStats) : List String :=
  (([("new features", stats.featureCount),
     ("bug fixes", stats.bugFixCount),
     ("infrastructure / refactoring", stats.refactorCount),
     ("security improvements", stats.securityCount),
     ("other changes", stats.otherCount)].filter (fun p => p.2 != 0)).map
    (fun p => p.1 ++ " (" ++ toString p.2 ++ ")"))

/-- Closing code-delta sentence (carried from the source text verbatim). -/
def summaryDeltaLine (stats : SummaryStats) : String :=
  "Total code delta: **+" ++ formatNumber stats.totalAdditions
    ++ "** / **-" ++ formatNumber stats.totalDeletions
    ++ "** lines across **" ++ formatNumber stats.totalFilesChanged ++ "** files."

/-- The claim's reading of `renderSummaryText` (C8): first sentence with the
claim's pluralization rule, the optional "Major focus areas" sentence built
from `focusAreasClaim` and omitted when that list is empty, then the code
delta sentence. -/
def renderSummaryTextClaim (stats : SummaryStats) : String :=
  let focus := focusAreasClaim stats
  joinSep "  \n" ([summaryLine1 stats]
    ++ (if focus.isEmpty then []
        else ["Major focus areas: " ++ joinSep ", " focus ++ "."])
    ++ [summaryDeltaLine stats])

theorem joinSep_cons_cons (sep x y : String) (xs : List String) :
    joinSep sep (x :: y :: xs) = x ++ sep ++ joinSep sep (y :: xs) := rfl

/-- **C8.** `renderSummaryText` pluralizes the pull-request and contributor
counts independently (the trailing "s" is dropped exactly when that count
is 1), so with both counts equal to 1 the output contains
`"1** merged pull request "` and `"1** contributor."`; the "Major focus
areas:" sentence lists exactly the non-zero categories in the fixed order
features, bugFixes, refactoring, security, other, and is omitted entirely
when all five category counts are zero. -/
theorem renderSummaryText_spec (stats : SummaryStats) :
    renderSummaryText stats = renderSummaryTextClaim stats
  ∧ (stats.totalPRs = 1 → stats.totalContributors = 1 →
      containsSub "1** merged pull request ".data (renderSummaryText stats).data = true
      ∧ containsSub "1** contributor.".data (renderSummaryText stats).data = true)
  ∧ (stats.featureCount = 0 → stats.bugFixCount = 0 → stats.refactorCount = 0 →
      stats.securityCount = 0 → stats.otherCount = 0 →
      renderSummaryText stats
        = summaryLine1 stats ++ "  \n" ++ summaryDeltaLine stats) := by
  have hmain : renderSummaryText stats = renderSummaryTextClaim stats := by
    unfold renderSummaryText renderSummaryTextClaim focusAreasClaim summaryLine1
      summaryDeltaLine
    rcases stats with ⟨tp, tc, ta, td, tf, cf, cb, cr, cs, co⟩
    simp only [ne_eq, ite_not]
    rcases Nat.eq_zero_or_pos cf with hf | hf <;>
      rcases Nat.eq_zero_or_pos cb with hb | hb <;>
        rcases Nat.eq_zero_or_pos cr with hr | hr <;>
          rcases Nat.eq_zero_or_pos cs with hs | hs <;>
            rcases Nat.eq_zero_or_pos co with ho | ho <;>
              simp_all [Nat.pos_iff_ne_zero, joinSep]
  refine ⟨hmain, ?_, ?_⟩
  · intro h1 h2
    have hline : summaryLine1 stats
        = "This release includes **1** merged pull request from **1** contributor." := by
      unfold summaryLine1
      rw [h1, h2]
      rfl
    have hshape : ∃ rest : String,
        renderSummaryTextClaim stats = summaryLine1 stats ++ "  \n" ++ rest := by
      unfold renderSummaryTextClaim
      rcases hfo : (focusAreasClaim stats).isEmpty with _ | _
      · refine ⟨"Major focus areas: " ++ joinSep ", " (focusAreasClaim stats) ++ "."
          ++ "  \n" ++ summaryDeltaLine stats, ?_⟩
        simp [hfo, joinSep, String.append_assoc]
      · refine ⟨summaryDeltaLine stats, ?_⟩
        simp [hfo, joinSep]
    obtain ⟨rest, hrest⟩ := hshape
    rw [hmain, hrest, hline]
    constructor
    · apply containsSub_append_right
      apply containsSub_append_right
      decide
    · apply containsSub_append_right
      apply containsSub_append_right
      decide
  · intro hf hb hr hs ho
    rw [hmain]
    unfold renderSummaryTextClaim
    have hfo : focusAreasClaim stats = [] := by
      unfold focusAreasClaim
      simp [hf, hb, hr, hs, ho]
    rw [hfo]
    rfl

/-- Witness for the hypothesis-bearing clauses of C8, instantiated on a
stats record with one PR from one contributor and no categorized changes. -/
theorem renderSummaryText_spec_witness :
    containsSub "1** merged pull request ".data
      (renderSummaryText ⟨1, 1, 10, 2, 3, 0, 0, 0, 0, 0⟩).data = true
  ∧ containsSub "1** contributor.".data
      (renderSummaryText ⟨1, 1, 10, 2, 3, 0, 0, 0, 0, 0⟩).data = true
  ∧ renderSummaryText ⟨1, 1, 10, 2, 3, 0, 0, 0, 0, 0⟩
      = summaryLine1 ⟨1, 1, 10, 2, 3, 0, 0, 0, 0, 0⟩ ++ "  \n"
        ++ summaryDeltaLine ⟨1, 1, 10, 2, 3, 0, 0, 0, 0, 0⟩ :=
  ⟨((renderSummaryText_spec ⟨1, 1, 10, 2, 3, 0, 0, 0, 0, 0⟩).2.1 rfl rfl).1,
   ((renderSummaryText_spec ⟨1, 1, 10, 2, 3, 0, 0, 0, 0, 0⟩).2.1 rfl rfl).2,
   (renderSummaryText_spec ⟨1, 1, 10, 2, 3, 0, 0, 0, 0, 0⟩).2.2 rfl rfl rfl rfl rfl⟩

/-! ## Message splitting (`src/publishers.ts`, `splitMessage`)

Content is embedded as a character list; `content.split("\n")` becomes
`splitLinesChar` and `.join`-style reassembly becomes `joinNL`. -/

def splitLinesChar : List Char → List (List Char)
  | [] => [[]]
  | c :: rest =>
    if c = '\n' then [] :: splitLinesChar rest
    else
      match splitLinesChar rest with
      | h :: t => (c :: h) :: t
      | [] => [[c]]

def joinNLAux : List (List Char) → List Char
  | [] => []
  | l :: ls => '\n' :: l ++ joinNLAux ls

/-- Join lines with newline separators (inverse of `splitLinesChar`). -/
def joinNL : List (List Char) → List Char
  | [] => []
  | h :: t => h ++ joinNLAux t

theorem splitLinesChar_ne_nil (s : List Char) : splitLinesChar s ≠ [] := by
  cases s with
  | nil => simp [splitLinesChar]
  | cons c rest =>
    by_cases h : c = '\n'
    · simp [splitLinesChar, h]
    · simp only [splitLinesChar, if_neg h]
      rcases splitLinesChar rest with _ | ⟨h', t⟩ <;> simp

theorem joinNL_splitLinesChar (s : List Char) : joinNL (splitLinesChar s) = s := by
  induction s with
  | nil => rfl
  | cons c rest ih =>
    by_cases h : c = '\n'
    · subst h
      simp only [splitLinesChar, if_pos rfl]
      rcases hr : splitLinesChar rest with _ | ⟨hd, t⟩
      · exact absurd hr (splitLinesChar_ne_nil rest)
      · rw [hr] at ih
        simp only [joinNL, joinNLAux, List.nil_append]
        rw [← ih]
        simp [joinNL, joinNLAux]
    · simp only [splitLinesChar, if_neg h]
      rcases hr : splitLinesChar rest with _ | ⟨hd, t⟩
      · exact absurd hr (splitLinesChar_ne_nil rest)
      · rw [hr] at ih
        simp only [joinNL, List.cons_append]
        rw [show (hd ++ joinNLAux t) = joinNL (hd :: t) from rfl, ih]

theorem joinNLAux_append_singleton (t : List (List Char)) (l : List Char) :
    joinNLAux (t ++ [l]) = joinNLAux t ++ '\n' :: l := by
  induction t with
  | nil => simp [joinNLAux]
  | cons x xs ih => simp [joinNLAux, ih]

theorem joinNL_append_singleton (seg : List (List Char)) (l : List Char)
    (h : seg ≠ []) : joinNL (seg ++ [l]) = joinNL seg ++ '\n' :: l := by
  cases seg with
  | nil => exact absurd rfl h
  | cons x xs => simp [joinNL, joinNLAux_append_singleton]

/-- The accumulating loop of `splitMessage` (`for (const line of lines)`
followed by the final `if (currentChunk) chunks.push(currentChunk)`).
`if (currentChunk)` — JavaScript string truthiness — is `¬ isEmpty`. -/
def splitLoop (maxLength : Nat) :
    List (List Char) → List (List Char) → List Char → List (List Char)
  | [], chunks, cur => if cur.isEmpty then chunks else chunks ++ [cur]
  | line :: rest, chunks, cur =>
    if maxLength < (cur ++ '\n' :: line).length then
      splitLoop maxLength rest (if cur.isEmpty then chunks else chunks ++ [cur]) line
    else
      splitLoop maxLength rest chunks (if cur.isEmpty then line else cur ++ '\n' :: line)

/-- `splitMessage` from `publishers.ts`. -/
def splitMessage (content : List Char) (maxLength : Nat) : List (List Char) :=
  if content.length ≤ maxLength then [content]
  else splitLoop maxLength (splitLinesChar content) [] []

/-- `c` is the newline-join of a non-empty run of consecutive lines. -/
def IsSegJoin (lines : List (List Char)) (c : List Char) : Prop :=
  ∃ pre seg post, lines = pre ++ seg ++ post ∧ seg ≠ [] ∧ c = joinNL seg

/-- The three per-chunk properties claimed for `splitMessage` (C10),
relative to the full line list `L`. -/
def GoodChunk (L : List (List Char)) (maxLength : Nat) (c : List Char) : Prop :=
  IsSegJoin L c
  ∧ (maxLength < c.length → c ∈ L)
  ∧ ((∀ l ∈ L, l.length ≤ maxLength) → c.length ≤ maxLength)

theorem splitLoop_spec (maxLength : Nat) (L : List (List Char)) :
    ∀ (lines chunks : List (List Char)) (cur : List Char),
      (∀ c ∈ chunks, GoodChunk L maxLength c) →
      ((cur = [] ∧ ∃ pre, L = pre ++ lines)
        ∨ (∃ pre seg, L = pre ++ seg ++ lines ∧ seg ≠ [] ∧ cur = joinNL seg)) →
      (maxLength < cur.length → cur ∈ L) →
      ((∀ l ∈ L, l.length ≤ maxLength) → cur.length ≤ maxLength) →
      ∀ c ∈ splitLoop maxLength lines chunks cur, GoodChunk L maxLength c := by
  intro lines
  induction lines with
  | nil =>
    intro chunks cur hchunks hinv hcur1 hcur2 c hc
    simp only [splitLoop] at hc
    rcases he : cur.isEmpty with _ | _
    · rw [he, if_neg Bool.false_ne_true] at hc
      rcases List.mem_append.mp hc with hc | hc
      · exact hchunks c hc
      · have hc : c = cur := by simpa using hc
        subst hc
        rcases hinv with ⟨hnil, -⟩ | ⟨pre, seg, hL, hne, hcur⟩
        · rw [hnil] at he
          simp at he
        · exact ⟨⟨pre, seg, [], by simpa using hL, hne, hcur⟩, hcur1, hcur2⟩
    · rw [he] at hc
      simp only [if_pos rfl] at hc
      exact hchunks c hc
  | cons line rest ih =>
    intro chunks cur hchunks hinv hcur1 hcur2 c hc
    have hlineL : line ∈ L := by
      rcases hinv with ⟨-, pre, hL⟩ | ⟨pre, seg, hL, -, -⟩
      · rw [hL]; simp
      · rw [hL]; simp
    have hnewchunks : ∀ x ∈ (if cur.isEmpty then chunks else chunks ++ [cur]),
        GoodChunk L maxLength x := by
      rcases he : cur.isEmpty with _ | _
      · rw [if_neg Bool.false_ne_true]
        intro x hx
        rcases List.mem_append.mp hx with hx | hx
        · exact hchunks x hx
        · have hx : x = cur := by simpa using hx
          subst hx
          rcases hinv with ⟨hnil, -⟩ | ⟨pre, seg, hL, hne, hcur⟩
          · rw [hnil] at he
            simp at he
          · exact ⟨⟨pre, seg, line :: rest, hL, hne, hcur⟩, hcur1, hcur2⟩
      · rw [if_pos rfl]
        exact hchunks
    have hlineinv : (line = [] ∧ ∃ pre, L = pre ++ rest)
        ∨ (∃ pre seg, L = pre ++ seg ++ rest ∧ seg ≠ [] ∧ line = joinNL seg) := by
      right
      rcases hinv with ⟨-, pre, hL⟩ | ⟨pre, seg, hL, -, -⟩
      · exact ⟨pre, [line], by simpa using hL, by simp, by simp [joinNL, joinNLAux]⟩
      · exact ⟨pre ++ seg, [line], by rw [hL]; simp [List.append_assoc], by simp,
          by simp [joinNL, joinNLAux]⟩
    simp only [splitLoop] at hc
    by_cases hover : maxLength < (cur ++ '\n' :: line).length
    · rw [if_pos hover] at hc
      exact ih (if cur.isEmpty then chunks else chunks ++ [cur]) line
        hnewchunks hlineinv (fun _ => hlineL)
        (fun hall => hall line hlineL) c hc
    · rw [if_neg hover] at hc
      rcases he : cur.isEmpty with _ | _
      · -- cur nonempty: extend the current segment
        rw [he, if_neg Bool.false_ne_true] at hc
        have hcur : ∃ pre seg, L = pre ++ seg ++ (line :: rest) ∧ seg ≠ []
            ∧ cur = joinNL seg := by
          rcases hinv with ⟨hnil, -⟩ | h
          · rw [hnil] at he
            simp at he
          · exact h
        obtain ⟨pre, seg, hL, hne, hcureq⟩ := hcur
        have hlen : (cur ++ '\n' :: line).length ≤ maxLength := by omega
        refine ih chunks (cur ++ '\n' :: line) hchunks ?_ ?_ ?_ c hc
        · right
          exact ⟨pre, seg ++ [line],
            by rw [hL]; simp [List.append_assoc], by simp,
            by rw [joinNL_append_singleton seg line hne, hcureq]⟩
        · intro hx
          omega
        · intro _
          exact hlen
      · -- cur empty: start a new chunk with this line
        rw [he, if_pos rfl] at hc
        have hlen : ('\n' :: line).length ≤ maxLength := by
          have : cur = [] := List.isEmpty_iff.mp he
          rw [this] at hover
          simpa using Nat.le_of_not_lt hover
        exact ih chunks line hchunks hlineinv
          (fun hx => by simp at hlen; omega)
          (fun _ => by simp at hlen; omega) c hc

/-- **C10.** For every content string and positive `maxLength`, every chunk
returned by `splitMessage` is the newline-join of one or more consecutive
lines of the input (a line is never split mid-line), any chunk longer than
`maxLength` is exactly one input line, and hence if every input line fits in
`maxLength` then every chunk does. -/
theorem splitMessage_spec (content : List Char) (maxLength : Nat)
    (_hpos : 0 < maxLength) (chunk : List Char)
    (hmem : chunk ∈ splitMessage content maxLength) :
    IsSegJoin (splitLinesChar content) chunk
  ∧ (maxLength < chunk.length → chunk ∈ splitLinesChar content)
  ∧ ((∀ l ∈ splitLinesChar content, l.length ≤ maxLength) →
      chunk.length ≤ maxLength) := by
  unfold splitMessage at hmem
  by_cases hle : content.length ≤ maxLength
  · rw [if_pos hle] at hmem
    have hchunk : chunk = content := by simpa using hmem
    subst hchunk
    refine ⟨⟨[], splitLinesChar chunk, [],
      by simp, splitLinesChar_ne_nil chunk, (joinNL_splitLinesChar chunk).symm⟩,
      fun h => absurd hle (by omega), fun _ => hle⟩
  · rw [if_neg hle] at hmem
    exact splitLoop_spec maxLength (splitLinesChar content)
      (splitLinesChar content) [] []
      (by simp)
      (Or.inl ⟨rfl, [], rfl⟩)
      (by simp)
      (by simp)
      chunk hmem

/-- Witness for C10 on the concrete input `"ab\ncd"` with limit 3. -/
theorem splitMessage_spec_witness :
    IsSegJoin (splitLinesChar "ab\ncd".data) "ab".data
  ∧ (3 < "ab".data.length → "ab".data ∈ splitLinesChar "ab\ncd".data)
  ∧ ((∀ l ∈ splitLinesChar "ab\ncd".data, l.length ≤ 3) →
      "ab".data.length ≤ 3) :=
  splitMessage_spec "ab\ncd".data 3 (by decide) "ab".data (by decide)

/-! ## Inline rich-text tokenizer (`scripts/post-to-notion.sh`, `parse_rich_text`)

The shell function delegates to a Python scanner over the combined pattern
`(bold_link)|(link)|(bold)|(code)`, whose alternatives are tried in that
order at each position, leftmost match first.  Every character class in
the patterns (`[^\]]+`, `[^\)]+`, `[^\*]+`, the code-span class) excludes
the literal that must follow it, so the greedy matches are deterministic
and each alternative is embedded as a total scanner below.  The backtick
character is written `'\x60'`. -/

def codeTick : Char := '\x60'

/-- A Notion rich-text run. -/
inductive Run where
  | plain (text : List Char)
  | bold (text : List Char)
  | code (text : List Char)
  | link (text url : List Char)
  | boldLink (text url : List Char)
deriving DecidableEq

/-- `([^s]*)s`: the (possibly empty) run of characters other than `stop`
up to the first `stop`, which is consumed; fails when `stop` never occurs. -/
def scanClassGo (stop : Char) : List Char → Option (List Char × List Char)
  | [] => none
  | c :: rest =>
    if c = stop then some ([], rest)
    else (scanClassGo stop rest).map (fun p => (c :: p.1, p.2))

/-- `([^s]+)s`: a non-empty run of characters other than `stop`, then the
`stop` character itself; returns the run and the remainder. -/
def scanClass (stop : Char) (l : List Char) : Option (List Char × List Char) :=
  match scanClassGo stop l with
  | some (txt, rem) => if txt.isEmpty then none else some (txt, rem)
  | none => none

/-- `\*\*\[([^\]]+)\]\(([^\)]+)\)\*\*` at the current position: `**[`, the
bracket class up to `]`, a literal `(`, the parenthesis class up to `)`,
then `**`. -/
def matchBoldLinkAt (l : List Char) : Option (Run × List Char) :=
  match l with
  | '*' :: '*' :: '[' :: l1 =>
    match scanClass ']' l1 with
    | some (txt, '(' :: l3) =>
      match scanClass ')' l3 with
      | some (url, '*' :: '*' :: rest) => some (.boldLink txt url, rest)
      | _ => none
    | _ => none
  | _ => none

/-- `\[([^\]]+)\]\(([^\)]+)\)` at the current position. -/
def matchLinkAt (l : List Char) : Option (Run × List Char) :=
  match l with
  | '[' :: l1 =>
    match scanClass ']' l1 with
    | some (txt, '(' :: l3) =>
      match scanClass ')' l3 with
      | some (url, l4) => some (.link txt url, l4)
      | none => none
    | _ => none
  | _ => none

/-- `\*\*([^\*]+)\*\*` at the current position: after the opening `**`, a
non-empty star-free run, the first closing star (consumed by the class
scanner), and a second closing star. -/
def matchBoldAt (l : List Char) : Option (Run × List Char) :=
  match l with
  | '*' :: '*' :: l1 =>
    match scanClass '*' l1 with
    | some (txt, '*' :: rest) => some (.bold txt, rest)
    | _ => none
  | _ => none

/-- The backtick code-span pattern at the current position. -/
def matchCodeAt (l : List Char) : Option (Run × List Char) :=
  match l with
  | c :: l1 =>
    if c = codeTick then
      match scanClass codeTick l1 with
      | some (txt, rest) => some (.code txt, rest)
      | none => none
    else none
  | [] => none

/-- The combined alternation, alternatives in source order: bold-link
before link before bold before code. -/
def matchAt (l : List Char) : Option (Run × List Char) :=
  match matchBoldLinkAt l with
  | some r => some r
  | none =>
    match matchLinkAt l with
    | some r => some r
    | none =>
      match matchBoldAt l with
      | some r => some r
      | none => matchCodeAt l

theorem scanClassGo_some (stop : Char) (l : List Char) :
    ∀ (txt rem : List Char), scanClassGo stop l = some (txt, rem) →
      l = txt ++ stop :: rem := by
  induction l with
  | nil => exact fun txt rem h => Option.noConfusion h
  | cons c rest ih =>
    intro txt rem h
    unfold scanClassGo at h
    split at h
    next hc =>
      cases h
      simp [hc]
    next hc =>
      rw [Option.map_eq_some'] at h
      obtain ⟨⟨txt', rem'⟩, hgo, heq⟩ := h
      cases heq
      simp [ih txt' rem' hgo]

theorem scanClass_some (stop : Char) (l txt rest : List Char)
    (h : scanClass stop l = some (txt, rest)) :
    l = txt ++ stop :: rest ∧ txt ≠ [] := by
  unfold scanClass at h
  split at h
  next txt' rem' hgo =>
    split at h
    next => exact Option.noConfusion h
    next hemp =>
      cases h
      exact ⟨scanClassGo_some stop l txt rest hgo, by simpa [List.isEmpty_iff] using hemp⟩
  next => exact Option.noConfusion h

theorem scanClass_len (stop : Char) (l txt rest : List Char)
    (h : scanClass stop l = some (txt, rest)) : rest.length < l.length := by
  obtain ⟨heq, -⟩ := scanClass_some stop l txt rest h
  rw [heq]
  simp
  omega

theorem matchBoldLinkAt_len (l : List Char) (r : Run) (rest : List Char)
    (h : matchBoldLinkAt l = some (r, rest)) : rest.length < l.length := by
  unfold matchBoldLinkAt at h
  split at h <;> try exact Option.noConfusion h
  next l1 =>
    split at h <;> try exact Option.noConfusion h
    next txt l3 hscan1 =>
      split at h <;> try exact Option.noConfusion h
      next url rest' hscan2 =>
        cases h
        have h1 := scanClass_len ']' l1 txt ('(' :: l3) hscan1
        have h2 := scanClass_len ')' l3 url ('*' :: '*' :: rest) hscan2
        simp_all
        omega

theorem matchLinkAt_len (l : List Char) (r : Run) (rest : List Char)
    (h : matchLinkAt l = some (r, rest)) : rest.length < l.length := by
  unfold matchLinkAt at h
  split at h <;> try exact Option.noConfusion h
  next l1 =>
    split at h <;> try exact Option.noConfusion h
    next txt l3 hscan1 =>
      split at h <;> try exact Option.noConfusion h
      next url l4 hscan2 =>
        cases h
        have h1 := scanClass_len ']' l1 txt ('(' :: l3) hscan1
        have h2 := scanClass_len ')' l3 url rest hscan2
        simp_all
        omega

theorem matchBoldAt_len (l : List Char) (r : Run) (rest : List Char)
    (h : matchBoldAt l = some (r, rest)) : rest.length < l.length := by
  unfold matchBoldAt at h
  split at h <;> try exact Option.noConfusion h
  next l1 =>
    split at h <;> try exact Option.noConfusion h
    next txt rest' hscan =>
      cases h
      have h1 := scanClass_len '*' l1 txt ('*' :: rest) hscan
      simp_all
      omega

theorem matchCodeAt_len (l : List Char) (r : Run) (rest : List Char)
    (h : matchCodeAt l = some (r, rest)) : rest.length < l.length := by
  unfold matchCodeAt at h
  split at h <;> try exact Option.noConfusion h
  next c l1 =>
    split at h <;> try exact Option.noConfusion h
    next hc =>
      split at h <;> try exact Option.noConfusion h
      next txt rest' hscan =>
        cases h
        have h1 := scanClass_len codeTick l1 txt rest hscan
        simp
        omega

theorem matchAt_len (l : List Char) (r : Run) (rest : List Char)
    (h : matchAt l = some (r, rest)) : rest.length < l.length := by
  unfold matchAt at h
  split at h
  next p h1 =>
    cases h
    exact matchBoldLinkAt_len l r rest h1
  next h1 =>
    split at h
    next p h2 =>
      cases h
      exact matchLinkAt_len l r rest h2
    next h2 =>
      split at h
      next p h3 =>
        cases h
        exact matchBoldAt_len l r rest h3
      next h3 => exact matchCodeAt_len l r rest h

/-- Fueled version of the `re.finditer` scanning loop: at each position try
the combined alternation; on a match, flush the pending plain text and emit
the matched run; otherwise accumulate the character as plain text.  Fuel at
least the input length makes the fuel inessential (`scanRunsGo_fuel`). -/
def scanRunsGo : Nat → List Char → List Char → List Run
  | 0, l, acc => if (acc ++ l).isEmpty then [] else [.plain (acc ++ l)]
  | fuel + 1, l, acc =>
    match matchAt l with
    | some (r, rest) =>
      if acc.isEmpty then r :: scanRunsGo fuel rest []
      else .plain acc :: r :: scanRunsGo fuel rest []
    | none =>
      match l with
      | [] => if acc.isEmpty then [] else [.plain acc]
      | c :: t => scanRunsGo fuel t (acc ++ [c])

/-- The scanning loop started with empty pending text. -/
def scanRuns (l : List Char) : List Run :=
  scanRunsGo l.length l []

/-- `parse_rich_text`: the scanner plus the final fallback that turns a
matchless line into a single plain run. -/
def parse_rich_text (l : List Char) : List Run :=
  match scanRuns l with
  | [] => [.plain l]
  | rs => rs

theorem matchAt_nil : matchAt [] = none := rfl

theorem scanRunsGo_fuel (f1 : Nat) :
    ∀ (f2 : Nat) (l acc : List Char), l.length ≤ f1 → l.length ≤ f2 →
      scanRunsGo f1 l acc = scanRunsGo f2 l acc := by
  induction f1 with
  | zero =>
    intro f2 l acc h1 h2
    have hl : l = [] := by
      cases l
      · rfl
      · simp at h1
    subst hl
    cases f2 with
    | zero => rfl
    | succ g => simp [scanRunsGo, matchAt_nil]
  | succ f ih =>
    intro f2 l acc h1 h2
    cases f2 with
    | zero =>
      have hl : l = [] := by
        cases l
        · rfl
        · simp at h2
      subst hl
      simp [scanRunsGo, matchAt_nil]
    | succ g =>
      rcases hm : matchAt l with - | ⟨r, rest⟩
      · cases l with
        | nil => rfl
        | cons c t =>
          have ht1 : t.length ≤ f := by simp at h1; omega
          have ht2 : t.length ≤ g := by simp at h2; omega
          simp only [scanRunsGo, hm]
          exact ih g t (acc ++ [c]) ht1 ht2
      · have hlt := matchAt_len l r rest hm
        simp only [scanRunsGo, hm]
        rw [ih g rest [] (by omega) (by omega)]

theorem scanClassGo_exact (stop : Char) (s r : List Char)
    (hs : ∀ c ∈ s, c ≠ stop) :
    scanClassGo stop (s ++ stop :: r) = some (s, r) := by
  induction s with
  | nil => simp [scanClassGo]
  | cons c cs ih =>
    have hc : c ≠ stop := hs c (by simp)
    show scanClassGo stop (c :: (cs ++ stop :: r)) = _
    unfold scanClassGo
    rw [if_neg hc, ih (fun x hx => hs x (by simp [hx]))]
    rfl

theorem scanClass_exact (stop : Char) (s r : List Char)
    (hne : s ≠ []) (hs : ∀ c ∈ s, c ≠ stop) :
    scanClass stop (s ++ stop :: r) = some (s, r) := by
  unfold scanClass
  rw [scanClassGo_exact stop s r hs]
  simp [List.isEmpty_iff, hne]

theorem matchBoldLinkAt_exact (s u rest : List Char) (hs : s ≠ []) (hu : u ≠ [])
    (hsc : ∀ c ∈ s, c ≠ ']') (huc : ∀ c ∈ u, c ≠ ')') :
    matchBoldLinkAt ('*' :: '*' :: '[' :: (s ++ ']' :: '(' :: (u ++ ')' :: '*' :: '*' :: rest)))
      = some (.boldLink s u, rest) := by
  have h1 : scanClass ']' (s ++ ']' :: ('(' :: (u ++ ')' :: '*' :: '*' :: rest)))
      = some (s, '(' :: (u ++ ')' :: '*' :: '*' :: rest)) :=
    scanClass_exact ']' s _ hs hsc
  have h2 : scanClass ')' (u ++ ')' :: ('*' :: '*' :: rest))
      = some (u, '*' :: '*' :: rest) :=
    scanClass_exact ')' u _ hu huc
  simp only [matchBoldLinkAt, h1, h2]

theorem matchAt_boldLink (s u rest : List Char) (hs : s ≠ []) (hu : u ≠ [])
    (hsc : ∀ c ∈ s, c ≠ ']') (huc : ∀ c ∈ u, c ≠ ')') :
    matchAt ('*' :: '*' :: '[' :: (s ++ ']' :: '(' :: (u ++ ')' :: '*' :: '*' :: rest)))
      = some (.boldLink s u, rest) := by
  simp only [matchAt, matchBoldLinkAt_exact s u rest hs hu hsc huc]

theorem matchBoldLinkAt_head_none (c : Char) (t : List Char) (h : c ≠ '*') :
    matchBoldLinkAt (c :: t) = none := by
  unfold matchBoldLinkAt
  split <;> simp_all

theorem matchLinkAt_head_none (c : Char) (t : List Char) (h : c ≠ '[') :
    matchLinkAt (c :: t) = none := by
  unfold matchLinkAt
  split <;> simp_all

theorem matchBoldAt_head_none (c : Char) (t : List Char) (h : c ≠ '*') :
    matchBoldAt (c :: t) = none := by
  unfold matchBoldAt
  split <;> simp_all

theorem matchCodeAt_head_none (c : Char) (t : List Char) (h : c ≠ codeTick) :
    matchCodeAt (c :: t) = none := by
  simp [matchCodeAt, h]

theorem matchAt_head_none (c : Char) (t : List Char)
    (h1 : c ≠ '*') (h2 : c ≠ '[') (h3 : c ≠ codeTick) :
    matchAt (c :: t) = none := by
  simp [matchAt, matchBoldLinkAt_head_none c t h1, matchLinkAt_head_none c t h2,
    matchBoldAt_head_none c t h1, matchCodeAt_head_none c t h3]

theorem scanRunsGo_succ_match (fuel : Nat) (l : List Char) (r : Run) (rest : List Char)
    (hm : matchAt l = some (r, rest)) :
    scanRunsGo (fuel + 1) l [] = r :: scanRunsGo fuel rest [] := by
  simp [scanRunsGo, hm]

theorem scanRunsGo_plain (l : List Char)
    (hl : ∀ c ∈ l, c ≠ '*' ∧ c ≠ '[' ∧ c ≠ codeTick) :
    ∀ (fuel : Nat) (acc : List Char), l.length ≤ fuel →
      scanRunsGo fuel l acc
        = if (acc ++ l).isEmpty then [] else [.plain (acc ++ l)] := by
  induction l with
  | nil =>
    intro fuel acc hf
    cases fuel with
    | zero => rfl
    | succ g => simp [scanRunsGo, matchAt_nil]
  | cons c t ih =>
    intro fuel acc hf
    cases fuel with
    | zero => simp at hf
    | succ g =>
      obtain ⟨hc1, hc2, hc3⟩ := hl c (by simp)
      have hm : matchAt (c :: t) = none := matchAt_head_none c t hc1 hc2 hc3
      simp only [scanRunsGo, hm]
      rw [ih (fun x hx => hl x (by simp [hx])) g (acc ++ [c]) (by simp at hf ⊢; omega)]
      simp

/-- **C6.** The inline tokenizer emits, for the concrete line
`"**[PR #1](url)** text"`, exactly a BoldLink run followed by one Plain
run; in general a line starting with a well-formed `**[text](url)**` span
always yields that span as a single BoldLink run (never a plain Link with
residual `**` fragments) followed by the scan of the remainder; and a line
containing none of the marker characters `*`, `[`, backtick becomes exactly
one Plain run. -/
theorem parse_rich_text_spec :
    parse_rich_text "**[PR #1](url)** text".data
      = [.boldLink "PR #1".data "url".data, .plain " text".data]
  ∧ (∀ (s u rest : List Char), s ≠ [] → u ≠ [] →
      (∀ c ∈ s, c ≠ ']') → (∀ c ∈ u, c ≠ ')') →
      parse_rich_text ("**[".data ++ (s ++ ("](".data ++ (u ++ (")**".data ++ rest)))))
        = .boldLink s u :: scanRuns rest)
  ∧ (∀ l : List Char, l ≠ [] →
      (∀ c ∈ l, c ≠ '*' ∧ c ≠ '[' ∧ c ≠ codeTick) →
      parse_rich_text l = [.plain l]) := by
  refine ⟨by decide, ?_, ?_⟩
  · intro s u rest hs hu hsc huc
    show parse_rich_text
        ('*' :: '*' :: '[' :: (s ++ ']' :: '(' :: (u ++ ')' :: '*' :: '*' :: rest)))
      = .boldLink s u :: scanRuns rest
    have hm := matchAt_boldLink s u rest hs hu hsc huc
    have hscan : scanRuns
        ('*' :: '*' :: '[' :: (s ++ ']' :: '(' :: (u ++ ')' :: '*' :: '*' :: rest)))
        = .boldLink s u :: scanRuns rest := by
      unfold scanRuns
      rw [show ('*' :: '*' :: '[' :: (s ++ ']' :: '(' :: (u ++ ')' :: '*' :: '*' :: rest))).length
          = ('*' :: '[' :: (s ++ ']' :: '(' :: (u ++ ')' :: '*' :: '*' :: rest))).length + 1
          from rfl]
      rw [scanRunsGo_succ_match _ _ _ _ hm]
      rw [scanRunsGo_fuel
        ('*' :: '[' :: (s ++ ']' :: '(' :: (u ++ ')' :: '*' :: '*' :: rest))).length
        rest.length rest [] (by simp; omega) (le_refl _)]
    unfold parse_rich_text
    rw [hscan]
  · intro l hne hl
    have hscan : scanRuns l = [.plain l] := by
      unfold scanRuns
      rw [scanRunsGo_plain l hl l.length [] (le_refl _)]
      simp [List.isEmpty_iff, hne]
    unfold parse_rich_text
    rw [hscan]

/-- Witness for the hypothesis-bearing clauses of C6. -/
theorem parse_rich_text_spec_witness :
    parse_rich_text ("**[".data ++ ("ab".data ++ ("](".data ++ ("u".data
        ++ (")**".data ++ " z".data)))))
      = .boldLink "ab".data "u".data :: scanRuns " z".data
  ∧ parse_rich_text "hello".data = [.plain "hello".data] :=
  ⟨parse_rich_text_spec.2.1 "ab".data "u".data " z".data (by decide) (by decide)
      (by decide) (by decide),
   parse_rich_text_spec.2.2 "hello".data (by decide) (by decide)⟩

/-! ## Markdown-to-block conversion
(`scripts/post-to-notion.sh`, `convert_markdown_to_notion_blocks`)

The shell loop reads the markdown line by line; we embed it as a function
over the list of lines.  Lines are dispatched in the source order: fence
handling first (with the in-code-block state), then blank-line skipping,
headings 1–3, numbered and bulleted list items, dividers, and finally
paragraphs.  jq's `. += [block]` appends to the output sequence, embedded
here by emitting blocks in order. -/

/-- A Notion block as built by the script. -/
inductive Block where
  | heading1 (runs : List Run)
  | heading2 (runs : List Run)
  | heading3 (runs : List Run)
  | numberedListItem (runs : List Run)
  | bulletedListItem (runs : List Run)
  | divider
  | codeBlock (language : List Char) (text : List Char)
  | paragraph (runs : List Run)
deriving DecidableEq

/-- Bash `[[ "$line" =~ ^\`\`\`(.*)$ ]]`: the line starts with three
backticks. -/
def isFenceLine (l : List Char) : Bool :=
  isPre "```".data l

/-- `^# (.+)$`. -/
def matchHeading1 (l : List Char) : Option (List Char) :=
  match l with
  | '#' :: ' ' :: c :: r => some (c :: r)
  | _ => none

/-- `^## (.+)$`. -/
def matchHeading2 (l : List Char) : Option (List Char) :=
  match l with
  | '#' :: '#' :: ' ' :: c :: r => some (c :: r)
  | _ => none

/-- `^### (.+)$`. -/
def matchHeading3 (l : List Char) : Option (List Char) :=
  match l with
  | '#' :: '#' :: '#' :: ' ' :: c :: r => some (c :: r)
  | _ => none

/-- `^[0-9]+\. (.+)$`. -/
def matchNumbered (l : List Char) : Option (List Char) :=
  if (l.takeWhile isDigitChar).isEmpty then none
  else
    match l.dropWhile isDigitChar with
    | '.' :: ' ' :: c :: r => some (c :: r)
    | _ => none

/-- `^[\*\-] (.+)$`. -/
def matchBullet (l : List Char) : Option (List Char) :=
  match l with
  | '*' :: ' ' :: c :: r => some (c :: r)
  | '-' :: ' ' :: c :: r => some (c :: r)
  | _ => none

/-- `^---+$`: three or more hyphens and nothing else. -/
def isDividerLine (l : List Char) : Bool :=
  match l with
  | '-' :: '-' :: '-' :: rest => rest.all (fun c => c == '-')
  | _ => false

/-- The `Normal`-state dispatch for one non-blank, non-fence line, in the
elif order of the script. -/
def classifyLine (l : List Char) : Block :=
  match matchHeading1 l with
  | some t => .heading1 (parse_rich_text t)
  | none =>
  match matchHeading2 l with
  | some t => .heading2 (parse_rich_text t)
  | none =>
  match matchHeading3 l with
  | some t => .heading3 (parse_rich_text t)
  | none =>
  match matchNumbered l with
  | some t => .numberedListItem (parse_rich_text t)
  | none =>
  match matchBullet l with
  | some t => .bulletedListItem (parse_rich_text t)
  | none =>
  if isDividerLine l then .divider else .paragraph (parse_rich_text l)

/-- `${code_block_content#$'\n'}`: strip one leading newline if present. -/
def stripLeadNL : List Char → List Char
  | c :: r => if c = '\n' then r else c :: r
  | [] => []

/-- jq `(if $lang == "" then "plain text" else $lang end)`. -/
def langOrDefault (lang : List Char) : List Char :=
  if lang.isEmpty then "plain text".data else lang

/-- The line loop of `convert_markdown_to_notion_blocks`, carrying the
`in_code_block` flag and the accumulated code content and language. -/
def convertFrom : List (List Char) → Bool → List Char → List Char → List Block
  | [], _, _, _ => []
  | l :: rest, inCode, content, lang =>
    if isFenceLine l then
      if inCode then
        if content.isEmpty then convertFrom rest false [] []
        else
          .codeBlock (langOrDefault lang) (stripLeadNL content)
            :: convertFrom rest false [] []
      else convertFrom rest true [] (l.drop 3)
    else if inCode then convertFrom rest true (content ++ '\n' :: l) lang
    else if l.isEmpty then convertFrom rest false content lang
    else classifyLine l :: convertFrom rest false content lang

/-- `convert_markdown_to_notion_blocks`, started in the `Normal` state. -/
def convert_markdown_to_notion_blocks (lines : List (List Char)) : List Block :=
  convertFrom lines false [] []

theorem isFenceLine_tag (tag : List Char) : isFenceLine ("```".data ++ tag) = true :=
  (isPre_iff "```".data ("```".data ++ tag)).mpr ⟨tag, rfl⟩

theorem convertFrom_step_inCode (l : List Char) (rest : List (List Char))
    (content lang : List Char) (hl : isFenceLine l = false) :
    convertFrom (l :: rest) true content lang
      = convertFrom rest true (content ++ '\n' :: l) lang := by
  rw [convertFrom, hl]
  simp

theorem convertFrom_step_openFence (l : List Char) (rest : List (List Char))
    (content lang : List Char) (hl : isFenceLine l = true) :
    convertFrom (l :: rest) false content lang
      = convertFrom rest true [] (l.drop 3) := by
  rw [convertFrom, hl]
  simp

theorem convertFrom_step_closeFence (l : List Char) (rest : List (List Char))
    (content lang : List Char) (hl : isFenceLine l = true)
    (hc : content ≠ []) :
    convertFrom (l :: rest) true content lang
      = .codeBlock (langOrDefault lang) (stripLeadNL content)
          :: convertFrom rest false [] [] := by
  rw [convertFrom, hl]
  simp [List.isEmpty_iff, hc]

theorem convertFrom_inCode (interior : List (List Char)) :
    ∀ (rest : List (List Char)) (content lang : List Char),
      (∀ l ∈ interior, isFenceLine l = false) →
      convertFrom (interior ++ rest) true content lang
        = convertFrom rest true (content ++ joinNLAux interior) lang := by
  induction interior with
  | nil => simp [joinNLAux]
  | cons l ls ih =>
    intro rest content lang hnf
    have hl : isFenceLine l = false := hnf l (by simp)
    show convertFrom (l :: (ls ++ rest)) true content lang = _
    rw [convertFrom_step_inCode l (ls ++ rest) content lang hl]
    rw [ih rest (content ++ '\n' :: l) lang (fun x hx => hnf x (by simp [hx]))]
    simp [joinNLAux, List.append_assoc]

theorem stripLeadNL_joinNLAux (interior : List (List Char)) (h : interior ≠ []) :
    stripLeadNL (joinNLAux interior) = joinNL interior := by
  cases interior with
  | nil => exact absurd rfl h
  | cons x xs => simp [joinNLAux, joinNL, stripLeadNL]

theorem joinNLAux_ne_nil (interior : List (List Char)) (h : interior ≠ []) :
    joinNLAux interior ≠ [] := by
  cases interior with
  | nil => exact absurd rfl h
  | cons x xs => simp [joinNLAux]

/-- Counterexample to C4 as stated: the matched fence pair
`"```py"` / `"```"` with no lines between them emits zero blocks (the
script only emits when the accumulated content is non-empty), not exactly
one CodeBlock. -/
theorem emptyFence_counterexample :
    convert_markdown_to_notion_blocks ["```py".data, "```".data] = [] := by decide

/-- **C4 (amended).** For every matched pair of fence lines with at least
one line between them, entering records the language tag (defaulting to
"plain text" when the tag is empty) and exiting emits exactly one CodeBlock
whose text is the accumulated lines with the single leading newline
stripped, i.e. the interior lines joined by newlines; a fence pair with no
interior lines emits no block.  In particular `"```py" / "print(1)" /
"```"` yields exactly one CodeBlock with language `"py"` and text
`"print(1)"`, and an empty tag defaults to "plain text". -/
theorem codeBlock_emission (tag ctag : List Char) (interior rest : List (List Char))
    (hne : interior ≠ []) (hnf : ∀ l ∈ interior, isFenceLine l = false) :
    convert_markdown_to_notion_blocks
        (("```".data ++ tag) :: interior ++ ("```".data ++ ctag) :: rest)
      = .codeBlock (langOrDefault tag) (joinNL interior) :: convertFrom rest false [] []
  ∧ convert_markdown_to_notion_blocks ["```py".data, "print(1)".data, "```".data]
      = [.codeBlock "py".data "print(1)".data]
  ∧ convert_markdown_to_notion_blocks ["```".data, "x".data, "```".data]
      = [.codeBlock "plain text".data "x".data] := by
  refine ⟨?_, by decide, by decide⟩
  show convertFrom (("```".data ++ tag) :: (interior ++ ("```".data ++ ctag) :: rest))
      false [] [] = _
  rw [convertFrom_step_openFence _ _ _ _ (isFenceLine_tag tag)]
  rw [show ("```".data ++ tag).drop 3 = tag from rfl]
  rw [convertFrom_inCode interior (("```".data ++ ctag) :: rest) [] tag hnf]
  rw [List.nil_append]
  rw [convertFrom_step_closeFence _ _ _ _ (isFenceLine_tag ctag)
    (joinNLAux_ne_nil interior hne)]
  rw [stripLeadNL_joinNLAux interior hne]

/-- Witness for C4 (amended): a two-line interior with an empty tag on the
closing fence. -/
theorem codeBlock_emission_witness :
    convert_markdown_to_notion_blocks
        (("```".data ++ "sh".data) :: ["a".data, "b".data]
          ++ ("```".data ++ "".data) :: [])
      = Block.codeBlock (langOrDefault "sh".data) (joinNL ["a".data, "b".data])
          :: convertFrom [] false [] [] :=
  (codeBlock_emission "sh".data "".data ["a".data, "b".data] []
    (by decide) (by decide)).1

/-- **C5.** Reaching the end of input while still inside a code fence
(`InCodeBlock`) emits nothing at all: the pending partial content is
silently dropped and the lines consumed inside the unterminated fence
produce zero blocks. -/
theorem unterminatedFence_spec (tag : List Char) (interior : List (List Char))
    (hnf : ∀ l ∈ interior, isFenceLine l = false) :
    convert_markdown_to_notion_blocks (("```".data ++ tag) :: interior) = [] := by
  show convertFrom (("```".data ++ tag) :: interior) false [] [] = []
  rw [convertFrom_step_openFence _ _ _ _ (isFenceLine_tag tag)]
  rw [show ("```".data ++ tag).drop 3 = tag from rfl]
  rw [show interior = interior ++ ([] : List (List Char)) by simp]
  rw [convertFrom_inCode interior [] [] tag hnf]
  rfl

/-- Witness for C5: an unterminated `"```py"` fence followed by one content
line yields zero blocks. -/
theorem unterminatedFence_spec_witness :
    convert_markdown_to_notion_blocks
        (("```".data ++ "py".data) :: ["print(1)".data]) = [] :=
  unterminatedFence_spec "py".data ["print(1)".data] (by decide)

end ReleaseRelay
